import Mathlib

/-
Verification development for the HMM / segmentation core of the bio-rs
repository (src/hw/hw6.rs, hw7.rs, hw8.rs, hw9.rs).

Conventions of the shallow embedding:
  * Rust f64 values are modelled as real numbers (exact arithmetic); the one
    place where IEEE special values matter (the log-add identity claims about
    negative infinity) uses the dedicated type `FP` below, which carries NaN
    and the two infinities explicitly.
  * HashMap<char, f64> emission tables are modelled as `Fin 2 → Char → Option ℝ`
    (indexing a missing key panics in Rust; the Option-returning embedding
    `computeScores` yields `none` exactly when the Rust code panics).
  * The hard-coded parameter tables of the Rust sources are passed as
    arguments to the embedded functions; the dynamic-programming code itself
    is translated line by line.
-/

namespace BioRS

/-! ## Log-space arithmetic, from hw8.rs lines 169-175 -/

/-- Embedding of `logp1exp` (hw8.rs line 173): `if x < -709.089565713 { 0.0 }
else { x.exp().ln_1p() }`, with f64 arithmetic idealised to ℝ. -/
noncomputable def logp1exp (x : ℝ) : ℝ :=
  if x < -709.089565713 then 0 else Real.log (1 + Real.exp x)

/-- Embedding of `sum_log_prob` (hw8.rs line 169): the repository's `log_add`. -/
noncomputable def sum_log_prob (a b : ℝ) : ℝ :=
  if a > b then a + logp1exp (b - a) else b + logp1exp (a - b)

/-! ## An f64 model with IEEE special values, for the -infinity claims.

`FP` is ℝ together with NaN, +infinity and -infinity.  Arithmetic on finite
values is exact real arithmetic; the propagation rules for the special values
follow IEEE 754 (`inf - inf = NaN`, comparisons involving NaN are false,
`exp(-inf) = 0`, `ln_1p(NaN) = NaN`, ...). -/

inductive FP where
  | nan : FP
  | ninf : FP
  | pinf : FP
  | fin : ℝ → FP

/-- IEEE addition on `FP`. -/
def FP.add : FP → FP → FP
  | nan, _ => nan
  | _, nan => nan
  | ninf, pinf => nan
  | pinf, ninf => nan
  | ninf, _ => ninf
  | _, ninf => ninf
  | pinf, _ => pinf
  | _, pinf => pinf
  | fin x, fin y => fin (x + y)

/-- IEEE subtraction on `FP`. -/
def FP.sub : FP → FP → FP
  | nan, _ => nan
  | _, nan => nan
  | ninf, ninf => nan
  | pinf, pinf => nan
  | ninf, _ => ninf
  | pinf, _ => pinf
  | fin _, ninf => pinf
  | fin _, pinf => ninf
  | fin x, fin y => fin (x - y)

/-- IEEE `>` on `FP` (false whenever NaN is involved). -/
noncomputable def FP.gt : FP → FP → Bool
  | nan, _ => false
  | _, nan => false
  | ninf, ninf => false
  | pinf, pinf => false
  | pinf, _ => true
  | _, pinf => false
  | ninf, _ => false
  | _, ninf => true
  | fin x, fin y => decide (x > y)

/-- IEEE `<` on `FP` (false whenever NaN is involved). -/
noncomputable def FP.lt : FP → FP → Bool
  | nan, _ => false
  | _, nan => false
  | ninf, ninf => false
  | pinf, pinf => false
  | ninf, _ => true
  | _, ninf => false
  | _, pinf => true
  | pinf, _ => false
  | fin x, fin y => decide (x < y)

/-- f64 `exp` on `FP`: `exp(-inf) = 0`, `exp(+inf) = +inf`, `exp(NaN) = NaN`;
finite arguments are idealised to the exact real exponential. -/
noncomputable def FP.exp : FP → FP
  | nan => nan
  | ninf => fin 0
  | pinf => pinf
  | fin x => fin (Real.exp x)

/-- f64 `ln_1p` on `FP`: NaN below -1 (and at -inf and NaN), `-inf` at -1,
`+inf` at `+inf`, exact `log (1 + x)` on the rest. -/
noncomputable def FP.ln1p : FP → FP
  | nan => nan
  | pinf => pinf
  | ninf => nan
  | fin x => if x < -1 then nan else if x = -1 then ninf else fin (Real.log (1 + x))

/-- `logp1exp` of hw8.rs line 173, on the `FP` model. -/
noncomputable def logp1expF (x : FP) : FP :=
  if FP.lt x (FP.fin (-709.089565713)) then FP.fin 0 else FP.ln1p (FP.exp x)

/-- `sum_log_prob` of hw8.rs line 169, on the `FP` model. -/
noncomputable def sum_log_probF (a b : FP) : FP :=
  if FP.gt a b then FP.add a (logp1expF (FP.sub b a)) else FP.add b (logp1expF (FP.sub a b))

/-! ## The forward evaluator `compute_scores`, hw8.rs lines 145-167.

The Rust function takes a character iterator, the two emission HashMaps, the
start probabilities and the 2x2 transition table, and fills one row per
character.  It panics (`unwrap` on `None`) when the iterator is empty, and it
panics (HashMap `Index`) when a character has no entry in an emission map.
`computeScores` below returns `none` exactly in the panicking runs.

`csAuxO` is the `for c in char_iter` loop: given the previous row it emits the
remaining rows.  The row formula for state `i` is literally line 158-159:
`sum_log_prob(prev[0] + em[i][c] + tp[0][i], prev[1] + em[i][c] + tp[1][i])`. -/

/-- One inner row of `compute_scores` for the loop at hw8.rs lines 155-164,
with the two emission lookups already resolved to `e0`/`e1`. -/
noncomputable def csRowStep (tr : Fin 2 → Fin 2 → ℝ) (prev : Fin 2 → ℝ) (e0 e1 : ℝ) :
    Fin 2 → ℝ :=
  fun i =>
    sum_log_prob (prev 0 + (if i = 0 then e0 else e1) + tr 0 i)
      (prev 1 + (if i = 0 then e0 else e1) + tr 1 i)

/-- The `for c in char_iter` loop of `compute_scores` (hw8.rs lines 155-164):
produces the rows after `prev`, or `none` on the first emission-lookup panic. -/
noncomputable def csAuxO (em : Fin 2 → Char → Option ℝ) (tr : Fin 2 → Fin 2 → ℝ)
    (prev : Fin 2 → ℝ) : List Char → Option (List (Fin 2 → ℝ))
  | [] => some []
  | c :: rest =>
    match em 0 c, em 1 c with
    | some e0, some e1 =>
      (csAuxO em tr (csRowStep tr prev e0 e1) rest).map (csRowStep tr prev e0 e1 :: ·)
    | _, _ => none

/-- Embedding of `compute_scores` (hw8.rs lines 145-167).  `none` models a
panic: `char_iter.next().unwrap()` on an empty sequence, or the
`emission_probs[i][&c]` HashMap index on a symbol with no emission entry. -/
noncomputable def computeScores (em : Fin 2 → Char → Option ℝ) (st : Fin 2 → ℝ)
    (tr : Fin 2 → Fin 2 → ℝ) : List Char → Option (List (Fin 2 → ℝ))
  | [] => none
  | c :: rest =>
    match em 0 c, em 1 c with
    | some e0, some e1 =>
      (csAuxO em tr (fun i => st i + (if i = 0 then e0 else e1)) rest).map
        ((fun i => st i + (if i = 0 then e0 else e1)) :: ·)
    | _, _ => none

/-! ### Total versions of the same recursion, for sequences whose symbols all
have emission entries (`emv` is the total emission table). -/

/-- Row `t` of the forward table in terms of row `t-1`, for a fully-covered
alphabet (hw8.rs lines 158-159 with `emv i c = em[i][&c]`). -/
noncomputable def csNext (emv : Fin 2 → Char → ℝ) (tr : Fin 2 → Fin 2 → ℝ)
    (prev : Fin 2 → ℝ) (c : Char) : Fin 2 → ℝ :=
  fun i => sum_log_prob (prev 0 + emv i c + tr 0 i) (prev 1 + emv i c + tr 1 i)

/-- Row 0 of the forward table (hw8.rs line 151). -/
noncomputable def csRow0 (emv : Fin 2 → Char → ℝ) (st : Fin 2 → ℝ) (c : Char) :
    Fin 2 → ℝ :=
  fun i => st i + emv i c

/-- The rows after `prev`, total version of `csAuxO`. -/
noncomputable def csAux (emv : Fin 2 → Char → ℝ) (tr : Fin 2 → Fin 2 → ℝ)
    (prev : Fin 2 → ℝ) : List Char → List (Fin 2 → ℝ)
  | [] => []
  | c :: rest => csNext emv tr prev c :: csAux emv tr (csNext emv tr prev c) rest

/-- The forward table of `compute_scores` on a fully-covered sequence. -/
noncomputable def csTable (emv : Fin 2 → Char → ℝ) (st : Fin 2 → ℝ)
    (tr : Fin 2 → Fin 2 → ℝ) : List Char → List (Fin 2 → ℝ)
  | [] => []
  | c :: rest => csRow0 emv st c :: csAux emv tr (csRow0 emv st c) rest

/-! ## The hw8.rs `run` loop, lines 16-103.

`run` keeps `prev_ll = -1.0`, `current_ll = 0.0` and iterates the Baum-Welch
body `while (prev_ll - current_ll).abs() > 0.1`.  Inside the body it computes
`forward = compute_scores(sequence)`, `backward = compute_scores(reversed
sequence)` (lines 29-33), the log-likelihood from the last forward row
(line 32), and the new start probabilities (lines 57-58) as
`forward[0][s] + backward[n-2][s] - current_ll`.

Throughout `run` the row of the `backward` table used for sequence position
`t` is `backward[n - 1 - t]` (see the `fb`/`fwb` accumulation at lines 39-51,
which pairs `forward[t]` with `backward[n - t - 1]`). -/

/-- The `backward` table of hw8.rs line 33: `compute_scores` applied to the
reversed sequence (total version). -/
noncomputable def hw8Backward (emv : Fin 2 → Char → ℝ) (st : Fin 2 → ℝ)
    (tr : Fin 2 → Fin 2 → ℝ) (seq : List Char) : List (Fin 2 → ℝ) :=
  csTable emv st tr seq.reverse

/-- The log-likelihood of hw8.rs lines 31-32: `sum_log_prob(last[0], last[1])`
for the last forward row. -/
noncomputable def hw8LogLikelihood (emv : Fin 2 → Char → ℝ) (st : Fin 2 → ℝ)
    (tr : Fin 2 → Fin 2 → ℝ) (seq : List Char) : ℝ :=
  let fwd := csTable emv st tr seq
  let lastRow := fwd.getD (fwd.length - 1) (fun _ => 0)
  sum_log_prob (lastRow 0) (lastRow 1)

/-- The new start probability of state `s` set by hw8.rs lines 57-58:
`forward[0][s] + backward[n - 2][s] - current_ll`. -/
noncomputable def hw8NewStart (emv : Fin 2 → Char → ℝ) (st : Fin 2 → ℝ)
    (tr : Fin 2 → Fin 2 → ℝ) (seq : List Char) (s : Fin 2) : ℝ :=
  (csTable emv st tr seq).getD 0 (fun _ => 0) s
    + (hw8Backward emv st tr seq).getD (seq.length - 2) (fun _ => 0) s
    - hw8LogLikelihood emv st tr seq

/-- The state occupancy `gamma[0][s]` as the same `run` computes it for `t = 0`
at hw8.rs line 40: `forward[0][s] + backward[n - 1][s] - current_ll`
(the backward row for sequence position 0). -/
noncomputable def hw8Gamma0 (emv : Fin 2 → Char → ℝ) (st : Fin 2 → ℝ)
    (tr : Fin 2 → Fin 2 → ℝ) (seq : List Char) (s : Fin 2) : ℝ :=
  (csTable emv st tr seq).getD 0 (fun _ => 0) s
    + (hw8Backward emv st tr seq).getD (seq.length - 1) (fun _ => 0) s
    - hw8LogLikelihood emv st tr seq

/-- The loop guard of hw8.rs line 19: `(prev_ll - current_ll).abs() > 0.1`,
on the pair (previous log-likelihood, current log-likelihood). -/
def bwGuard (ll : ℝ × ℝ) : Prop := |ll.1 - ll.2| > 0.1

/-- The initial (prev_ll, current_ll) pair of hw8.rs lines 17-18. -/
def bwInit : ℝ × ℝ := (-1, 0)

/-- Executions of the `while` loop of hw8.rs lines 19-103.  A loop state is a
pair of the mutable model parameters (abstracted as `σ`) and the
(prev_ll, current_ll) pair; `step` is one full body iteration (forward table,
backward table, log-likelihood, re-estimation).  `BWLoop step s s' n` says the
loop started at `s` exits in state `s'` after `n` body iterations. -/
inductive BWLoop {σ : Type} (step : σ × ℝ × ℝ → σ × ℝ × ℝ) :
    σ × ℝ × ℝ → σ × ℝ × ℝ → ℕ → Prop where
  | stop (s : σ × ℝ × ℝ) : ¬ bwGuard s.2 → BWLoop step s s 0
  | iter (s s' : σ × ℝ × ℝ) (n : ℕ) :
      bwGuard s.2 → BWLoop step (step s) s' n → BWLoop step s s' (n + 1)

/-! ## Concrete hw8 parameter tables (hw8.rs lines 7-11), used by the
failing-input theorems. -/

/-- Start probabilities of hw8.rs line 7. -/
noncomputable def hw8StartProbs : Fin 2 → ℝ :=
  fun s => if s = 0 then Real.log 0.996 else Real.log 0.004

/-- Transition probabilities of hw8.rs line 8. -/
noncomputable def hw8TransitionProbs : Fin 2 → Fin 2 → ℝ :=
  fun i j =>
    if i = 0 then (if j = 0 then Real.log 0.999 else Real.log 0.001)
    else (if j = 0 then Real.log 0.01 else Real.log 0.99)

/-- Emission probabilities of hw8.rs lines 9-11, as partial maps on `Char`
(a key outside A/T/G/C is absent, as in the two HashMaps). -/
noncomputable def hw8EmissionProbs : Fin 2 → Char → Option ℝ :=
  fun s c =>
    if s = 0 then
      if c = 'A' then some (Real.log 0.3)
      else if c = 'T' then some (Real.log 0.3)
      else if c = 'G' then some (Real.log 0.2)
      else if c = 'C' then some (Real.log 0.2)
      else none
    else
      if c = 'A' then some (Real.log 0.15)
      else if c = 'T' then some (Real.log 0.15)
      else if c = 'G' then some (Real.log 0.35)
      else if c = 'C' then some (Real.log 0.35)
      else none

/-! ## The Viterbi decoder of hw9.rs `run`, lines 18-62.

Alignment columns (three-character `String`s in Rust) are modelled as abstract
symbols `ℕ`; the per-state emission log-probabilities `states[s].get_prob(em)`
are a total function (the Rust HashMap index panics on a missing key, and none
of the claims concerns that panic).  The start and transition tables
(hardcoded at hw9.rs lines 13-14) and the alignment coordinates `start`/`end`
(read from the input file) are passed as arguments. -/

/-- Row 0 of the Viterbi score table, hw9.rs lines 22-25:
`start_probs[s] + states[s].get_prob(em)`. -/
noncomputable def vitRow0 (st : Fin 2 → ℝ) (em : Fin 2 → ℕ → ℝ) (c : ℕ) : Fin 2 → ℝ :=
  fun s => st s + em s c

/-- One Viterbi step, hw9.rs lines 27-38: for each state `s` compare
`p0 = score[0][i-1] + tp[0][s] + em` with `p1 = score[1][i-1] + tp[1][s] + em`
and record the larger score together with the chosen predecessor
(`0` when `p0 > p1`, else `1`). -/
noncomputable def vitStep (tr : Fin 2 → Fin 2 → ℝ) (em : Fin 2 → ℕ → ℝ)
    (prev : Fin 2 → ℝ) (c : ℕ) : (Fin 2 → ℝ) × (Fin 2 → Fin 2) :=
  (fun s =>
      if prev 0 + tr 0 s + em s c > prev 1 + tr 1 s + em s c
      then prev 0 + tr 0 s + em s c else prev 1 + tr 1 s + em s c,
   fun s =>
      if prev 0 + tr 0 s + em s c > prev 1 + tr 1 s + em s c then 0 else 1)

/-- The rows after `prev` of the Viterbi score/predecessor tables. -/
noncomputable def vitAux (tr : Fin 2 → Fin 2 → ℝ) (em : Fin 2 → ℕ → ℝ)
    (prev : Fin 2 → ℝ) : List ℕ → List ((Fin 2 → ℝ) × (Fin 2 → Fin 2))
  | [] => []
  | c :: rest => vitStep tr em prev c :: vitAux tr em (vitStep tr em prev c).1 rest

/-- The full Viterbi tables (`score_tracker`, `state_tracker`) of hw9.rs
lines 19-39, one entry per position; the predecessor row at position 0 is the
all-zero initial value of `state_tracker` (line 20), which the loop never
overwrites at `i = 0`. -/
noncomputable def vitTables (st : Fin 2 → ℝ) (tr : Fin 2 → Fin 2 → ℝ)
    (em : Fin 2 → ℕ → ℝ) : List ℕ → List ((Fin 2 → ℝ) × (Fin 2 → Fin 2))
  | [] => []
  | c :: rest => (vitRow0 st em c, fun _ => 0) :: vitAux tr em (vitRow0 st em c) rest

/-- The final-state selection of hw9.rs lines 57-59:
`if p0 > p1 { Some(0) } else { Some(1) }`. -/
noncomputable def vitFinal (row : Fin 2 → ℝ) : Fin 2 :=
  if row 0 > row 1 then 0 else 1

/-- `state_segments[s].push(g)` of hw9.rs line 52. -/
def pushSeg (segs : Fin 2 → List (ℤ × ℤ)) (s : Fin 2) (g : ℤ × ℤ) :
    Fin 2 → List (ℤ × ℤ) :=
  fun j => if j = s then segs j ++ [g] else segs j

/-- The backtracking loop of hw9.rs lines 46-62 after its first (seeding)
iteration: the remaining iterations run `i = n-2, ..., 0` with
`current_state = cs`.  Each iteration looks up `next = state_tracker[cs][i]`,
and when `cs ≠ next` or `i = 0` pushes the segment
`(start + i, seg_end)` onto `state_segments[cs]` and moves `seg_end` to
`start + i - 1`. -/
def vitBack (trk : ℕ → Fin 2 → Fin 2) (startC : ℤ) :
    ℕ → Fin 2 → ℤ → (Fin 2 → List (ℤ × ℤ)) → (Fin 2 → List (ℤ × ℤ))
  | 0, cs, segEnd, segs => pushSeg segs cs (startC, segEnd)
  | i + 1, cs, segEnd, segs =>
    if cs ≠ trk (i + 1) cs then
      vitBack trk startC i (trk (i + 1) cs) (startC + (i + 1 : ℤ) - 1)
        (pushSeg segs cs (startC + (i + 1 : ℤ), segEnd))
    else vitBack trk startC i (trk (i + 1) cs) segEnd segs

/-- The `state_segments` output of hw9.rs `run` (lines 42-62) on an alignment
`seq` with declared coordinates `startC`/`endC`.  The first iteration of the
Rust loop (`current_state == None`, lines 56-61) only selects the best final
state and sets `seg_end = end`; when the sequence has fewer than two symbols
the loop body never reaches the `Some` branch and no segment is pushed. -/
noncomputable def vitSegments (st : Fin 2 → ℝ) (tr : Fin 2 → Fin 2 → ℝ)
    (em : Fin 2 → ℕ → ℝ) (seq : List ℕ) (startC endC : ℤ) :
    Fin 2 → List (ℤ × ℤ) :=
  let tabs := vitTables st tr em seq
  if 2 ≤ seq.length then
    vitBack (fun i cs => (tabs.getD i (fun _ => 0, fun _ => 0)).2 cs) startC
      (seq.length - 2)
      (vitFinal (tabs.getD (seq.length - 1) (fun _ => 0, fun _ => 0)).1)
      endC (fun _ => [])
  else fun _ => []

/-! ## The threshold / fall-off segmentation of hw6.rs `parse_sequence`
(lines 97-172) and hw7.rs `parse_sequence` (lines 186-261) / `simulate_new`
(lines 46-87).

The scan state carries the running cumulative score `cum`, the running maximum
`mx` with the position `endP` where it was achieved, the open segment start
`startP`, and the emitted segments.  One input item is a (position, score)
pair; the score of a line is `get_read_score(cnt)` in Rust.  The read-count
histogram bookkeeping (`c_i`/`t_i`/`m_i` and the `elevated_copies` maps) never
feeds back into `cum`/`mx`/`start`/`end`/`segs` and is omitted.

In every variant in the repository the reporting floor is the negation of the
fall-off constant: hw6.rs emits when `max >= S_SCORE` with
`S_SCORE = -D_SCORE` (lines 6-7, 150), hw7.rs emits when
`max >= -d_score` (lines 76, 239). -/

structure SegState where
  cum : ℝ
  mx : ℝ
  startP : ℤ
  endP : ℤ
  segs : List (ℤ × ℤ × ℝ)

/-- One line of the segmentation scan, hw6.rs lines 142-162 (identically
hw7.rs lines 231-251 and, with loop-index positions, hw7.rs lines 69-83):
add the score, update the running maximum and its position when
`cum >= max`, and when `cum <= 0`, `cum <= max + d` or the line is the last
one, close the segment (emitting it when `max >= -d`) and reset. -/
noncomputable def segStep (d : ℝ) (st : SegState) (pos : ℤ) (v : ℝ) (isLast : Bool) :
    SegState :=
  let cum' := st.cum + v
  let mx' := if cum' ≥ st.mx then cum' else st.mx
  let end' := if cum' ≥ st.mx then pos else st.endP
  if cum' ≤ 0 ∨ cum' ≤ mx' + d ∨ isLast = true then
    { cum := 0, mx := 0, startP := pos + 1, endP := pos + 1,
      segs := if mx' ≥ -d then st.segs ++ [(st.startP, end', mx')] else st.segs }
  else
    { cum := cum', mx := mx', startP := st.startP, endP := end', segs := st.segs }

/-- The `for line in lines` scan: the last item is flagged
(`itertools::with_position`, Last/Only). -/
noncomputable def segScanAux (d : ℝ) (st : SegState) : List (ℤ × ℝ) → SegState
  | [] => st
  | [(p, v)] => segStep d st p v true
  | (p, v) :: x :: rest => segScanAux d (segStep d st p v false) (x :: rest)

/-- The emitted segment list of `parse_sequence` for fall-off constant `d`
(negative in the sources) on a list of (position, score) items; `cum`, `max`
start at 0 and `start`, `end` at 1 (hw6.rs lines 99-102). -/
noncomputable def segScan (d : ℝ) (items : List (ℤ × ℝ)) : List (ℤ × ℤ × ℝ) :=
  (segScanAux d ⟨0, 0, 1, 1, []⟩ items).segs

/-- The score stream of the threshold-segmentation scenario, as
(position, score) items at positions 1..7. -/
noncomputable def c6Stream : List (ℤ × ℝ) :=
  [(1, 2), (2, 2), (3, 2), (4, -5), (5, -5), (6, 2), (7, 2)]

/-! ## Small concrete tables used by witnesses and failing-input theorems -/

/-- All-zero start table. -/
def zeroStart : Fin 2 → ℝ := fun _ => 0

/-- All-zero transition table. -/
def zeroTrans : Fin 2 → Fin 2 → ℝ := fun _ _ => 0

/-- Emission map defined (with value 0) on every character. -/
def constEmO : Fin 2 → Char → Option ℝ := fun _ _ => some 0

/-- Total emission table that is identically 0. -/
def constEmV : Fin 2 → Char → ℝ := fun _ _ => 0

/-- All-zero emission table on the abstract hw9 symbols. -/
def constEmN : Fin 2 → ℕ → ℝ := fun _ _ => 0

/-- Start table of the Viterbi failing input: state 0 favoured by 10. -/
def c5Start : Fin 2 → ℝ := fun s => if s = 0 then 0 else -10

/-- Emission table of the Viterbi failing input: state 1 scores 1 on symbol 1,
everything else 0. -/
def c5Em : Fin 2 → ℕ → ℝ := fun s c => if s = 1 ∧ c = 1 then 1 else 0

/-- Emission table of the ordering failing input (claim about segment lists):
chosen so the decoded path alternates 1, 0, 1 over the last three positions. -/
def c8Em : Fin 2 → ℕ → ℝ := fun s c =>
  if (s = 0 ∧ c = 0) ∨ (s = 1 ∧ c = 1) ∨ (s = 0 ∧ c = 3) then -1 else 0

/-- Viterbi score row 0 (and 3) of the ordering failing input. -/
def c8Row0 : Fin 2 → ℝ := fun s => if s = 0 then -1 else 0

/-- Viterbi score row 1 of the ordering failing input. -/
def c8Row1 : Fin 2 → ℝ := fun s => if s = 1 then -1 else 0

/-- Viterbi score row 2 of the ordering failing input. -/
def c8Row2 : Fin 2 → ℝ := fun _ => 0

/-- Invariant of the segmentation scan relating the state to the remaining
items: the open segment bounds are ordered, the recorded maximum position is
not past any remaining input position, and the emitted segments are
well-formed, strictly before the open segment, and pairwise increasing. -/
def SegInv (stt : SegState) (items : List (ℤ × ℝ)) : Prop :=
  stt.startP ≤ stt.endP ∧ (∀ x ∈ items, stt.endP ≤ x.1) ∧
    (∀ g ∈ stt.segs, g.1 ≤ g.2.1 ∧ g.2.1 < stt.startP) ∧
    stt.segs.Pairwise (fun a b => a.2.1 < b.1)

/-! # Theorems -/

/-! ## Helper lemmas on the log-space arithmetic -/

theorem logp1exp_zero : logp1exp 0 = Real.log 2 := by
  rw [logp1exp, if_neg (by norm_num), Real.exp_zero]
  norm_num

theorem sum_log_prob_self (a : ℝ) : sum_log_prob a a = a + Real.log 2 := by
  rw [sum_log_prob, if_neg (lt_irrefl a), sub_self, logp1exp_zero]

theorem sum_log_prob_add_right (x y e : ℝ) :
    sum_log_prob (x + e) (y + e) = sum_log_prob x y + e := by
  unfold sum_log_prob
  have h1 : y + e - (x + e) = y - x := by ring
  have h2 : x + e - (y + e) = x - y := by ring
  by_cases h : x > y
  · rw [if_pos (by linarith), if_pos h, h1]; ring
  · rw [if_neg (fun hc => h (by linarith)), if_neg h, h2]; ring

/-! ## Claim C9: log_add and negative infinity -/

/-- Claim C9, counterexample: when both inputs of `sum_log_prob` are
`-infinity`, the Rust code computes `-inf + ln_1p(exp(-inf - -inf))`
`= -inf + NaN = NaN`, not `-infinity` (the value of "the other argument"),
because `-inf - -inf` is NaN.  So the claim "whenever either input of log_add
is -infinity the result equals the other argument" fails at
`log_add(-inf, -inf)`. -/
theorem log_add_both_neg_infinity_is_nan :
    sum_log_probF FP.ninf FP.ninf = FP.nan ∧ FP.nan ≠ FP.ninf := by
  constructor
  · simp [sum_log_probF, FP.gt, FP.sub, logp1expF, FP.lt, FP.exp, FP.ln1p, FP.add]
  · intro h; exact FP.noConfusion h

/-- Claim C9 (amended): `log_add(a, -infinity) = a` for every finite `a` (in
either argument order), and more generally whenever exactly one input of
`log_add` is `-infinity` the result equals the other argument; when both
inputs are `-infinity` the result is NaN. -/
theorem log_add_neg_infinity_amended :
    (∀ a : ℝ, sum_log_probF (FP.fin a) FP.ninf = FP.fin a ∧
        sum_log_probF FP.ninf (FP.fin a) = FP.fin a) ∧
    (∀ x : FP, x ≠ FP.ninf →
        sum_log_probF x FP.ninf = x ∧ sum_log_probF FP.ninf x = x) := by
  have key : ∀ x : FP, x ≠ FP.ninf →
      sum_log_probF x FP.ninf = x ∧ sum_log_probF FP.ninf x = x := by
    intro x hx
    cases x with
    | nan =>
      constructor <;>
        simp [sum_log_probF, FP.gt, FP.sub, logp1expF, FP.lt, FP.exp, FP.ln1p, FP.add]
    | ninf => exact absurd rfl hx
    | pinf =>
      constructor <;>
        simp [sum_log_probF, FP.gt, FP.sub, logp1expF, FP.lt, FP.exp, FP.ln1p, FP.add]
    | fin a =>
      constructor <;>
        simp [sum_log_probF, FP.gt, FP.sub, logp1expF, FP.lt, FP.exp, FP.ln1p, FP.add]
  exact ⟨fun a => key (FP.fin a) (fun h => FP.noConfusion h), key⟩

/-- Witness for `log_add_neg_infinity_amended` at the concrete finite input 5. -/
theorem log_add_neg_infinity_amended_witness :
    FP.fin 5 ≠ FP.ninf ∧ sum_log_probF (FP.fin 5) FP.ninf = FP.fin 5 ∧
      sum_log_probF FP.ninf (FP.fin 5) = FP.fin 5 := by
  have h : FP.fin 5 ≠ FP.ninf := fun h => FP.noConfusion h
  exact ⟨h, (log_add_neg_infinity_amended.2 (FP.fin 5) h).1,
    (log_add_neg_infinity_amended.2 (FP.fin 5) h).2⟩

/-! ## Claim C1: the forward table recurrence -/

theorem csRowStep_eq (emv : Fin 2 → Char → ℝ) (tr : Fin 2 → Fin 2 → ℝ)
    (prev : Fin 2 → ℝ) (c : Char) :
    csRowStep tr prev (emv 0 c) (emv 1 c) = csNext emv tr prev c := by
  funext i
  fin_cases i <;> simp [csRowStep, csNext]

theorem csAuxO_total (em : Fin 2 → Char → Option ℝ) (emv : Fin 2 → Char → ℝ)
    (tr : Fin 2 → Fin 2 → ℝ) (l : List Char) (prev : Fin 2 → ℝ)
    (hdom : ∀ c ∈ l, ∀ i : Fin 2, em i c = some (emv i c)) :
    csAuxO em tr prev l = some (csAux emv tr prev l) := by
  induction l generalizing prev with
  | nil => rfl
  | cons c rest ih =>
    have h0 := hdom c (by simp) 0
    have h1 := hdom c (by simp) 1
    simp only [csAuxO, h0, h1, csRowStep_eq emv tr prev c,
      ih (csNext emv tr prev c) (fun x hx i => hdom x (by simp [hx]) i),
      Option.map_some', csAux]

theorem csAux_length (emv : Fin 2 → Char → ℝ) (tr : Fin 2 → Fin 2 → ℝ)
    (l : List Char) (prev : Fin 2 → ℝ) :
    (csAux emv tr prev l).length = l.length := by
  induction l generalizing prev with
  | nil => rfl
  | cons c rest ih => simp [csAux, ih]

theorem csAux_getD (emv : Fin 2 → Char → ℝ) (tr : Fin 2 → Fin 2 → ℝ)
    (l : List Char) (prev : Fin 2 → ℝ) (t : ℕ) (ht : t + 1 < l.length + 1) :
    (prev :: csAux emv tr prev l).getD (t + 1) (fun _ => 0) =
      csNext emv tr ((prev :: csAux emv tr prev l).getD t (fun _ => 0))
        (l.getD t 'A') := by
  induction l generalizing prev t with
  | nil => exact absurd ht (by simp)
  | cons c rest ih =>
    cases t with
    | zero => simp [csAux]
    | succ u =>
      have h' : u + 1 < rest.length + 1 := by
        simpa [Nat.succ_lt_succ_iff] using ht
      simpa [csAux, List.getD_cons_succ] using ih (csNext emv tr prev c) u h'

/-- Claim C1: on a non-empty sequence whose symbols all have emission entries
(`em i c = some (emv i c)` on the sequence), `compute_scores` succeeds and
produces one row per position; row 0 at state `i` is
`start[i] + emission[i][symbol 0]` exactly; every later row satisfies
`table[t][i] = log_add(table[t-1][0] + tp[0][i], table[t-1][1] + tp[1][i])
+ emission[i][symbol t]` exactly; and a length-1 sequence yields exactly the
single start-plus-first-emission row. -/
theorem forward_table_spec (em : Fin 2 → Char → Option ℝ) (emv : Fin 2 → Char → ℝ)
    (st : Fin 2 → ℝ) (tr : Fin 2 → Fin 2 → ℝ) (seq : List Char)
    (hne : seq ≠ [])
    (hdom : ∀ c ∈ seq, ∀ i : Fin 2, em i c = some (emv i c)) :
    ∃ table : List (Fin 2 → ℝ),
      computeScores em st tr seq = some table ∧
      table.length = seq.length ∧
      (∀ i : Fin 2, table.getD 0 (fun _ => 0) i = st i + emv i (seq.getD 0 'A')) ∧
      (∀ t : ℕ, t + 1 < seq.length → ∀ i : Fin 2,
        table.getD (t + 1) (fun _ => 0) i =
          sum_log_prob (table.getD t (fun _ => 0) 0 + tr 0 i)
              (table.getD t (fun _ => 0) 1 + tr 1 i)
            + emv i (seq.getD (t + 1) 'A')) ∧
      (seq.length = 1 →
        table = [fun i => st i + emv i (seq.getD 0 'A')]) := by
  match seq, hne with
  | c :: rest, _ =>
    refine ⟨csTable emv st tr (c :: rest), ?_, ?_, ?_, ?_, ?_⟩
    · have h0 := hdom c (by simp) 0
      have h1 := hdom c (by simp) 1
      have hrow : (fun i : Fin 2 => st i + (if i = 0 then emv 0 c else emv 1 c)) =
          csRow0 emv st c := by
        funext i; fin_cases i <;> simp [csRow0]
      simp only [computeScores, h0, h1, hrow,
        csAuxO_total em emv tr rest (csRow0 emv st c)
          (fun x hx i => hdom x (by simp [hx]) i),
        Option.map_some', csTable]
    · simp [csTable, csAux_length]
    · intro i; simp [csTable, csRow0]
    · intro t ht i
      have hlen : t + 1 < rest.length + 1 := by simpa using ht
      have hrec := csAux_getD emv tr rest (csRow0 emv st c) t hlen
      have happ := congrFun hrec i
      simp only [csTable]
      rw [show ((c :: rest).getD (t + 1) 'A') = rest.getD t 'A' from rfl]
      rw [happ, csNext]
      have e1 : ((csRow0 emv st c :: csAux emv tr (csRow0 emv st c) rest).getD t
          (fun _ => 0)) 0 + emv i (rest.getD t 'A') + tr 0 i =
          ((csRow0 emv st c :: csAux emv tr (csRow0 emv st c) rest).getD t
          (fun _ => 0)) 0 + tr 0 i + emv i (rest.getD t 'A') := by ring
      have e2 : ((csRow0 emv st c :: csAux emv tr (csRow0 emv st c) rest).getD t
          (fun _ => 0)) 1 + emv i (rest.getD t 'A') + tr 1 i =
          ((csRow0 emv st c :: csAux emv tr (csRow0 emv st c) rest).getD t
          (fun _ => 0)) 1 + tr 1 i + emv i (rest.getD t 'A') := by ring
      rw [e1, e2, sum_log_prob_add_right]
    · intro hlen
      have : rest = [] := by
        cases rest with
        | nil => rfl
        | cons x xs => simp at hlen
      subst this
      rfl

/-- Witness for `forward_table_spec` on the one-symbol sequence `['A']` with
all-zero tables. -/
theorem forward_table_spec_witness :
    (['A'] : List Char) ≠ [] ∧
    ∃ table : List (Fin 2 → ℝ),
      computeScores constEmO zeroStart zeroTrans ['A'] = some table ∧
      table.length = (['A'] : List Char).length ∧
      (∀ i : Fin 2, table.getD 0 (fun _ => 0) i =
        zeroStart i + constEmV i ((['A'] : List Char).getD 0 'A')) ∧
      (∀ t : ℕ, t + 1 < (['A'] : List Char).length → ∀ i : Fin 2,
        table.getD (t + 1) (fun _ => 0) i =
          sum_log_prob (table.getD t (fun _ => 0) 0 + zeroTrans 0 i)
              (table.getD t (fun _ => 0) 1 + zeroTrans 1 i)
            + constEmV i ((['A'] : List Char).getD (t + 1) 'A')) ∧
      ((['A'] : List Char).length = 1 →
        table = [fun i => zeroStart i + constEmV i ((['A'] : List Char).getD 0 'A')]) :=
  ⟨by decide, forward_table_spec constEmO constEmV zeroStart zeroTrans ['A']
    (by decide) (fun c hc i => rfl)⟩

/-! ## Claim C7: failure behaviour of the forward evaluator -/

theorem csAuxO_eq_none_iff (em : Fin 2 → Char → Option ℝ) (tr : Fin 2 → Fin 2 → ℝ)
    (l : List Char) (prev : Fin 2 → ℝ) :
    csAuxO em tr prev l = none ↔ ∃ c ∈ l, em 0 c = none ∨ em 1 c = none := by
  induction l generalizing prev with
  | nil => simp [csAuxO]
  | cons c rest ih =>
    rcases h0 : em 0 c with _ | e0 <;> rcases h1 : em 1 c with _ | e1 <;>
      simp [csAuxO, h0, h1, Option.map_eq_none', ih]

/-- Claim C7, counterexample: with the program's own parameter tables
(hw8.rs lines 7-11), `compute_scores` on the empty sequence and on a sequence
containing the symbol `'Z'` (absent from the emission alphabet) panics —
`char_iter.next().unwrap()` on `None`, respectively the HashMap index
`emission_probs[i][&'Z']` — modelled by the result `none`.  No
`InvalidInput` error value exists anywhere in the repository, so the claimed
"fails with an InvalidInput error ... rather than a panic" is false. -/
theorem forward_error_is_panic :
    computeScores hw8EmissionProbs hw8StartProbs hw8TransitionProbs [] = none ∧
    computeScores hw8EmissionProbs hw8StartProbs hw8TransitionProbs ['Z'] = none := by
  constructor
  · simp [computeScores]
  · have h0 : hw8EmissionProbs 0 'Z' = none := by simp [hw8EmissionProbs]
    simp [computeScores, h0]

/-- Claim C7 (amended): the forward evaluator aborts by panicking — not by
returning an `InvalidInput` error — exactly when the sequence is empty
(`unwrap` on `None`, before any work) or some symbol of the sequence has no
entry in an emission table (HashMap index panic when that symbol is reached).
`none` is the embedding of the panicking runs. -/
theorem forward_failure_amended (em : Fin 2 → Char → Option ℝ) (st : Fin 2 → ℝ)
    (tr : Fin 2 → Fin 2 → ℝ) (seq : List Char) :
    computeScores em st tr seq = none ↔
      seq = [] ∨ ∃ c ∈ seq, em 0 c = none ∨ em 1 c = none := by
  cases seq with
  | nil => simp [computeScores]
  | cons c rest =>
    rcases h0 : em 0 c with _ | e0 <;> rcases h1 : em 1 c with _ | e1 <;>
      simp [computeScores, h0, h1, Option.map_eq_none', csAuxO_eq_none_iff]

/-! ## Claim C2: the "backward" table of hw8.rs -/

/-- Claim C2, failing-input evaluation: take the two-symbol sequence "AA",
emission value 0 for every state and symbol, start value 1 for both states and
an all-zero transition table.  The `backward` table computed at hw8.rs line 33
is `compute_scores` on the reversed sequence, so its row for sequence position
`n-1` (row `backward[n-1-t]` for position `t`, the indexing `run` itself uses
at lines 39-51) is row 0, whose entries are
`start_probs[s] + emission_probs[s][symbol[n-1]] = 1 + 0 = 1` for every state
— not 0 as the claim requires. -/
theorem backward_base_row_not_zero :
    ∀ s : Fin 2,
      (hw8Backward constEmV (fun _ => 1) zeroTrans ['A', 'A']).getD 0
          (fun _ => 0) s = 1 ∧
        (1 : ℝ) ≠ 0 := by
  intro s
  refine ⟨?_, by norm_num⟩
  simp [hw8Backward, csTable, csRow0, constEmV]

/-! ## Claim C3: the new start probabilities of one Baum-Welch step -/

theorem csTable_zero_AA :
    csTable constEmV zeroStart zeroTrans ['A', 'A'] =
      [fun _ => 0, fun _ => Real.log 2] := by
  have h1 : csRow0 constEmV zeroStart 'A' = fun _ : Fin 2 => (0 : ℝ) := by
    funext i; simp [csRow0, constEmV, zeroStart]
  have h2 : csNext constEmV zeroTrans (fun _ : Fin 2 => (0 : ℝ)) 'A' =
      fun _ : Fin 2 => Real.log 2 := by
    funext i
    simp [csNext, constEmV, zeroTrans, sum_log_prob_self]
  simp [csTable, csAux, h1, h2]

/-- Claim C3, failing-input evaluation: on the sequence "AA" with all-zero
parameter tables, hw8.rs lines 57-58 set the new start probability to
`forward[0][s] + backward[n-2][s] - current_ll = 0 + 0 - 2 log 2`, whereas
`gamma[0][s]` — the claim's value, and the value the same loop computes for
`t = 0` at line 40 using `backward[n-1]` — is `0 + log 2 - 2 log 2 = -log 2`.
The two differ (by `log 2`), so the new start probability is not
`gamma[0][s]`: line 57-58 reads the backward row of sequence position 1, not
position 0. -/
theorem new_start_is_not_gamma0 :
    ∀ s : Fin 2,
      hw8NewStart constEmV zeroStart zeroTrans ['A', 'A'] s =
          -(Real.log 2 + Real.log 2) ∧
        hw8Gamma0 constEmV zeroStart zeroTrans ['A', 'A'] s = -(Real.log 2) ∧
        hw8NewStart constEmV zeroStart zeroTrans ['A', 'A'] s ≠
          hw8Gamma0 constEmV zeroStart zeroTrans ['A', 'A'] s := by
  have hlog : (0 : ℝ) < Real.log 2 := Real.log_pos (by norm_num)
  intro s
  have hrev : (['A', 'A'] : List Char).reverse = ['A', 'A'] := by decide
  have hnew : hw8NewStart constEmV zeroStart zeroTrans ['A', 'A'] s =
      -(Real.log 2 + Real.log 2) := by
    simp [hw8NewStart, hw8Backward, hw8LogLikelihood, hrev, csTable_zero_AA,
      sum_log_prob_self]
  have hg : hw8Gamma0 constEmV zeroStart zeroTrans ['A', 'A'] s = -(Real.log 2) := by
    simp [hw8Gamma0, hw8Backward, hw8LogLikelihood, hrev, csTable_zero_AA,
      sum_log_prob_self]
  exact ⟨hnew, hg, by rw [hnew, hg]; intro hc; nlinarith⟩

/-! ## Claim C4: the convergence loop -/

theorem bwloop_final {σ : Type} {step : σ × ℝ × ℝ → σ × ℝ × ℝ}
    {s s' : σ × ℝ × ℝ} {n : ℕ} (h : BWLoop step s s' n) : ¬ bwGuard s'.2 := by
  induction h with
  | stop _ hg => exact hg
  | iter _ _ _ _ _ ih => exact ih

/-- Claim C4: every terminating execution of the hw8.rs `while` loop started
from the initial pair `(prev_ll, current_ll) = (-1, 0)` performs at least one
body iteration (the initial guard `|(-1) - 0| > 0.1` always holds); the final
state satisfies `|prev_ll - current_ll| <= 0.1`; and any state satisfying
`|prev_ll - current_ll| <= 0.1` exits immediately, so the loop stops exactly
when the absolute difference is at most the fixed threshold 0.1. -/
theorem convergence_loop_spec {σ : Type} (step : σ × ℝ × ℝ → σ × ℝ × ℝ) (p : σ)
    (final : σ × ℝ × ℝ) (n : ℕ) (h : BWLoop step (p, bwInit) final n) :
    1 ≤ n ∧ |final.2.1 - final.2.2| ≤ 0.1 ∧
      (∀ s : σ × ℝ × ℝ, |s.2.1 - s.2.2| ≤ 0.1 → BWLoop step s s 0) := by
  refine ⟨?_, ?_, fun s hs => BWLoop.stop s (by simp only [bwGuard, not_lt]; exact hs)⟩
  · cases h with
    | stop _ hg => exact absurd (by norm_num [bwGuard, bwInit]) hg
    | iter _ _ m _ _ => omega
  · have := bwloop_final h
    simpa [bwGuard, not_lt] using this

/-- Witness for `convergence_loop_spec`: the step that copies `current_ll`
into `prev_ll` converges after exactly one iteration from the initial pair. -/
theorem convergence_loop_spec_witness :
    1 ≤ 1 ∧ |(0 : ℝ) - 0| ≤ 0.1 ∧
      (∀ s : Unit × ℝ × ℝ, |s.2.1 - s.2.2| ≤ 0.1 →
        BWLoop (fun s : Unit × ℝ × ℝ => (s.1, s.2.2, s.2.2)) s s 0) := by
  have hrun : BWLoop (fun s : Unit × ℝ × ℝ => (s.1, s.2.2, s.2.2))
      ((), bwInit) ((), (0 : ℝ), (0 : ℝ)) 1 := by
    refine BWLoop.iter _ _ 0 ?_ ?_
    · show bwGuard ((), bwInit).2
      norm_num [bwGuard, bwInit]
    · exact BWLoop.stop _ (by norm_num [bwGuard])
  exact convergence_loop_spec (fun s => (s.1, s.2.2, s.2.2)) () ((), (0 : ℝ), (0 : ℝ)) 1 hrun

/-! ## Claim C10: Viterbi tie-breaking -/

/-- Claim C10: whenever the two candidate scores compared by the Viterbi
decoder are exactly equal, state 1 is selected — the per-position predecessor
recorded by the recurrence (hw9.rs lines 30-36, `if p0 > p1 ... else ...`) is
state 1, and the best final state chosen before backtracking (hw9.rs line 59)
is state 1 — so ties are broken everywhere in favour of the higher-indexed
state. -/
theorem viterbi_tie_prefers_state_one :
    (∀ (tr : Fin 2 → Fin 2 → ℝ) (em : Fin 2 → ℕ → ℝ) (prev : Fin 2 → ℝ) (c : ℕ)
        (s : Fin 2),
      prev 0 + tr 0 s + em s c = prev 1 + tr 1 s + em s c →
        (vitStep tr em prev c).2 s = 1) ∧
    (∀ row : Fin 2 → ℝ, row 0 = row 1 → vitFinal row = 1) := by
  constructor
  · intro tr em prev c s h
    simp [vitStep, h]
    linarith
  · intro row h
    simp [vitFinal, h]

/-- Witness for `viterbi_tie_prefers_state_one` on the all-zero tables, where
every comparison is a tie. -/
theorem viterbi_tie_prefers_state_one_witness :
    (zeroStart 0 + zeroTrans 0 0 + constEmN 0 0 =
      zeroStart 1 + zeroTrans 1 0 + constEmN 0 0) ∧
    (vitStep zeroTrans constEmN zeroStart 0).2 0 = 1 ∧ vitFinal zeroStart = 1 :=
  ⟨rfl, viterbi_tie_prefers_state_one.1 zeroTrans constEmN zeroStart 0 0 rfl,
    viterbi_tie_prefers_state_one.2 zeroStart rfl⟩

/-! ## Claim C5: the Viterbi backtracking -/

theorem c5_row0 : vitRow0 c5Start c5Em 0 = c5Start := by
  funext s
  fin_cases s <;> simp [vitRow0, c5Start, c5Em]

theorem c5_step1 :
    vitStep zeroTrans c5Em c5Start 1 = (fun s => c5Em s 1, fun _ => 0) := by
  have hq : ∀ s : Fin 2,
      c5Start 0 + zeroTrans 0 s + c5Em s 1 > c5Start 1 + zeroTrans 1 s + c5Em s 1 := by
    intro s
    simp [c5Start, zeroTrans]
  unfold vitStep
  simp only [Prod.mk.injEq]
  constructor
  · funext s
    rw [if_pos (hq s)]
    simp [c5Start, zeroTrans]
  · funext s
    rw [if_pos (hq s)]

theorem c5_tables :
    vitTables c5Start zeroTrans c5Em [0, 1] =
      [(c5Start, fun _ => 0), (fun s => c5Em s 1, fun _ => 0)] := by
  simp [vitTables, vitAux, c5_row0, c5_step1]

/-- Claim C5, failing-input evaluation: on the two-symbol sequence `[0, 1]`
with coordinates `start = 0`, `end = 1`, start table `(0, -10)`, zero
transitions, and emissions favouring state 1 on the last symbol, the decoder
chooses final state 1 (strictly best), whose recorded predecessor at the last
position is state 0 — yet the emitted segmentation is a single state-1 segment
`(0, 1)` covering both positions and nothing for state 0.  Backtracking as the
claim states it (path `[0, 1]`) would emit the state-0 segment `(0, 0)` and
the state-1 segment `(1, 1)`: the code seeds the best final state one position
early and never consults the predecessor entry of the final position. -/
theorem viterbi_backtrack_eval :
    vitSegments c5Start zeroTrans c5Em [0, 1] 0 1 1 = [(0, 1)] ∧
    vitSegments c5Start zeroTrans c5Em [0, 1] 0 1 0 = [] ∧
    vitFinal ((vitTables c5Start zeroTrans c5Em [0, 1]).getD 1
      (fun _ => 0, fun _ => 0)).1 = 1 ∧
    ((vitTables c5Start zeroTrans c5Em [0, 1]).getD 1
      (fun _ => 0, fun _ => 0)).2 1 = 0 := by
  have hfin : vitFinal (fun s => c5Em s 1) = 1 := by
    have h0 : c5Em 0 1 = 0 := by simp [c5Em]
    have h1 : c5Em 1 1 = 1 := by simp [c5Em]
    simp [vitFinal, h0, h1]
  refine ⟨?_, ?_, ?_, ?_⟩
  · simp [vitSegments, c5_tables, hfin, vitBack, pushSeg]
  · simp [vitSegments, c5_tables, hfin, vitBack, pushSeg]
  · simp [c5_tables, hfin]
  · simp [c5_tables]

/-! ## Claim C8: ordering of the emitted segment lists -/

theorem c8_row0 : vitRow0 zeroStart c8Em 0 = c8Row0 := by
  funext s
  fin_cases s <;> simp [vitRow0, zeroStart, c8Em, c8Row0]

theorem c8_step1 :
    vitStep zeroTrans c8Em c8Row0 1 = (c8Row1, fun _ => 1) := by
  have hq : ∀ s : Fin 2,
      ¬(c8Row0 0 + zeroTrans 0 s + c8Em s 1 > c8Row0 1 + zeroTrans 1 s + c8Em s 1) := by
    intro s
    simp [c8Row0, zeroTrans]
  unfold vitStep
  simp only [Prod.mk.injEq]
  constructor
  · funext s
    rw [if_neg (hq s)]
    fin_cases s <;> simp [c8Row0, c8Row1, c8Em, zeroTrans]
  · funext s
    rw [if_neg (hq s)]

theorem c8_step2 :
    vitStep zeroTrans c8Em c8Row1 2 = (c8Row2, fun _ => 0) := by
  have hq : ∀ s : Fin 2,
      c8Row1 0 + zeroTrans 0 s + c8Em s 2 > c8Row1 1 + zeroTrans 1 s + c8Em s 2 := by
    intro s
    simp [c8Row1, zeroTrans]
  unfold vitStep
  simp only [Prod.mk.injEq]
  constructor
  · funext s
    rw [if_pos (hq s)]
    fin_cases s <;> simp [c8Row1, c8Row2, c8Em, zeroTrans]
  · funext s
    rw [if_pos (hq s)]

theorem c8_step3 :
    vitStep zeroTrans c8Em c8Row2 3 = (c8Row0, fun _ => 1) := by
  have hq : ∀ s : Fin 2,
      ¬(c8Row2 0 + zeroTrans 0 s + c8Em s 3 > c8Row2 1 + zeroTrans 1 s + c8Em s 3) := by
    intro s
    simp [c8Row2, zeroTrans]
  unfold vitStep
  simp only [Prod.mk.injEq]
  constructor
  · funext s
    rw [if_neg (hq s)]
    fin_cases s <;> simp [c8Row0, c8Row2, c8Em, zeroTrans]
  · funext s
    rw [if_neg (hq s)]

theorem c8_tables :
    vitTables zeroStart zeroTrans c8Em [0, 1, 2, 3] =
      [(c8Row0, fun _ => 0), (c8Row1, fun _ => 1), (c8Row2, fun _ => 0),
        (c8Row0, fun _ => 1)] := by
  simp [vitTables, vitAux, c8_row0, c8_step1, c8_step2, c8_step3]

/-- Claim C8, counterexample: the hw9 decoder pushes segments while
backtracking from the end of the sequence, so a per-state segment list with
two or more segments is emitted in decreasing position order.  On the
four-symbol input whose decoded path is `1, 0, 1` over the last three
positions, `state_segments[1]` is `[(2, 3), (0, 0)]` — the segment starting at
position 2 precedes the one starting at position 0 — violating the claimed
increasing position order. -/
theorem viterbi_segments_not_increasing :
    vitSegments zeroStart zeroTrans c8Em [0, 1, 2, 3] 0 3 1 = [(2, 3), (0, 0)] ∧
    ¬ List.Chain' (fun a b : ℤ × ℤ => a.1 < b.1) [((2 : ℤ), (3 : ℤ)), (0, 0)] := by
  have hfin : vitFinal c8Row0 = 1 := by
    simp [vitFinal, c8Row0]
  constructor
  · simp [vitSegments, c8_tables, hfin, vitBack, pushSeg]
  · simp [List.chain'_cons]

/-! ## Claim C6: the threshold / fall-off segmentation scenario -/

theorem segScan_c6 : segScan (-4) c6Stream = [(1, 3, 6), (6, 7, 4)] := by
  have e1 : segStep (-4) ⟨0, 0, 1, 1, []⟩ 1 2 false = ⟨2, 2, 1, 1, []⟩ := by
    norm_num [segStep]
  have e2 : segStep (-4) ⟨2, 2, 1, 1, []⟩ 2 2 false = ⟨4, 4, 1, 2, []⟩ := by
    norm_num [segStep]
  have e3 : segStep (-4) ⟨4, 4, 1, 2, []⟩ 3 2 false = ⟨6, 6, 1, 3, []⟩ := by
    norm_num [segStep]
  have e4 : segStep (-4) ⟨6, 6, 1, 3, []⟩ 4 (-5) false = ⟨0, 0, 5, 5, [(1, 3, 6)]⟩ := by
    norm_num [segStep]
  have e5 : segStep (-4) ⟨0, 0, 5, 5, [(1, 3, 6)]⟩ 5 (-5) false =
      ⟨0, 0, 6, 6, [(1, 3, 6)]⟩ := by
    norm_num [segStep]
  have e6 : segStep (-4) ⟨0, 0, 6, 6, [(1, 3, 6)]⟩ 6 2 false =
      ⟨2, 2, 6, 6, [(1, 3, 6)]⟩ := by
    norm_num [segStep]
  have e7 : segStep (-4) ⟨2, 2, 6, 6, [(1, 3, 6)]⟩ 7 2 true =
      ⟨0, 0, 8, 8, [(1, 3, 6), (6, 7, 4)]⟩ := by
    norm_num [segStep]
  simp [segScan, segScanAux, c6Stream, e1, e2, e3, e4, e5, e6, e7]

/-- Claim C6, counterexample: on the score stream `[+2,+2,+2,-5,-5,+2,+2]`
(positions 1..7) with fall-off 4, the routine emits exactly TWO segments, not
one: `(1, 3, 6)` for the first run and `(6, 7, 4)` for the final run of +2s,
whose peak is `2 + 2 = 4` (not 2 as the claim asserts) and therefore passes
even the coupled reporting floor `-d = 4` — a fortiori the claimed independent
floor 3 (which the code cannot express: every variant couples the floor to the
fall-off). -/
theorem threshold_scenario_two_segments :
    segScan (-4) c6Stream = [(1, 3, 6), (6, 7, 4)] ∧
    (segScan (-4) c6Stream).length ≠ 1 := by
  refine ⟨segScan_c6, ?_⟩
  rw [segScan_c6]
  simp

/-- Claim C6 (amended): the routine maintains a running cumulative score that
resets to 0 when a segment closes (in particular whenever the cumulative score
is non-positive), tracks the running maximum and the position where it was
achieved, closes a segment whenever the updated cumulative score is
non-positive, has dropped to AT LEAST the fall-off amount below the updated
running maximum (`cum <= max + d`), or the input ends; a closing step emits
its segment iff the peak is AT LEAST the reporting floor, which is coupled to
the fall-off (`-d`).  On the score stream `[+2,+2,+2,-5,-5,+2,+2]` with
fall-off 4 (hence floor 4) it emits exactly the two segments `(1, 3, 6)` and
`(6, 7, 4)`. -/
theorem threshold_segmentation_amended :
    segScan (-4) c6Stream = [(1, 3, 6), (6, 7, 4)] ∧
    (∀ (d : ℝ) (stt : SegState) (pos : ℤ) (v : ℝ) (isLast : Bool),
      (segStep d stt pos v isLast).segs ≠ stt.segs ↔
        ((stt.cum + v ≤ 0 ∨
            stt.cum + v ≤ (if stt.cum + v ≥ stt.mx then stt.cum + v else stt.mx) + d ∨
            isLast = true) ∧
          (if stt.cum + v ≥ stt.mx then stt.cum + v else stt.mx) ≥ -d)) := by
  refine ⟨segScan_c6, ?_⟩
  intro d stt pos v isLast
  simp only [segStep]
  by_cases hclose : (stt.cum + v ≤ 0 ∨
      stt.cum + v ≤ (if stt.cum + v ≥ stt.mx then stt.cum + v else stt.mx) + d ∨
      isLast = true)
  · rw [if_pos hclose]
    by_cases hfloor : (if stt.cum + v ≥ stt.mx then stt.cum + v else stt.mx) ≥ -d
    · rw [if_pos hfloor]
      simp [hclose, hfloor]
    · rw [if_neg hfloor]
      simp [hclose, hfloor]
  · rw [if_neg hclose]
    simp [hclose]

/-! ## Claim C8 (amended): invariant proofs -/

theorem segsExt (startP e : ℤ) (m : ℝ) (segs : List (ℤ × ℤ × ℝ)) (bnd : ℤ)
    (hsegs : ∀ g ∈ segs, g.1 ≤ g.2.1 ∧ g.2.1 < startP)
    (hpw : segs.Pairwise (fun a b => a.2.1 < b.1))
    (hs : startP ≤ e) (he : e < bnd) :
    (∀ g ∈ segs ++ [(startP, e, m)], g.1 ≤ g.2.1 ∧ g.2.1 < bnd) ∧
      (segs ++ [(startP, e, m)]).Pairwise (fun a b => a.2.1 < b.1) := by
  constructor
  · intro g hg
    rcases List.mem_append.mp hg with h | h
    · have := hsegs g h
      omega
    · have hx : g = (startP, e, m) := by simpa using h
      subst hx
      exact ⟨hs, he⟩
  · refine List.pairwise_append.mpr ⟨hpw, by simp, ?_⟩
    intro g hg g' hg'
    have hx : g' = (startP, e, m) := by simpa using hg'
    subst hx
    exact (hsegs g hg).2

theorem segStep_inv (d : ℝ) (stt : SegState) (p : ℤ) (v : ℝ) (b : Bool)
    (rest : List (ℤ × ℝ)) (hinv : SegInv stt ((p, v) :: rest))
    (hrest : ∀ x ∈ rest, p < x.1) :
    SegInv (segStep d stt p v b) rest := by
  obtain ⟨hse, hend, hsegs, hpw⟩ := hinv
  have hendp : stt.endP ≤ p := hend (p, v) (by simp)
  simp only [segStep]
  by_cases hup : stt.cum + v ≥ stt.mx
  · simp only [if_pos hup]
    by_cases hclose : stt.cum + v ≤ 0 ∨ stt.cum + v ≤ stt.cum + v + d ∨ b = true
    · rw [if_pos hclose]
      by_cases hfloor : stt.cum + v ≥ -d
      · rw [if_pos hfloor]
        have hx := segsExt stt.startP p (stt.cum + v) stt.segs (p + 1) hsegs hpw
          (by omega) (by omega)
        exact ⟨le_refl _,
          fun x hx' => show (p : ℤ) + 1 ≤ x.1 by have := hrest x hx'; omega,
          hx.1, hx.2⟩
      · rw [if_neg hfloor]
        exact ⟨le_refl _,
          fun x hx' => show (p : ℤ) + 1 ≤ x.1 by have := hrest x hx'; omega,
          fun g hg => ⟨(hsegs g hg).1,
            show g.2.1 < p + 1 by have := (hsegs g hg).2; omega⟩, hpw⟩
    · rw [if_neg hclose]
      exact ⟨show stt.startP ≤ p by omega,
        fun x hx' => show (p : ℤ) ≤ x.1 by have := hrest x hx'; omega, hsegs, hpw⟩
  · simp only [if_neg hup]
    by_cases hclose : stt.cum + v ≤ 0 ∨ stt.cum + v ≤ stt.mx + d ∨ b = true
    · rw [if_pos hclose]
      by_cases hfloor : stt.mx ≥ -d
      · rw [if_pos hfloor]
        have hx := segsExt stt.startP stt.endP stt.mx stt.segs (p + 1) hsegs hpw
          hse (by omega)
        exact ⟨le_refl _,
          fun x hx' => show (p : ℤ) + 1 ≤ x.1 by have := hrest x hx'; omega,
          hx.1, hx.2⟩
      · rw [if_neg hfloor]
        exact ⟨le_refl _,
          fun x hx' => show (p : ℤ) + 1 ≤ x.1 by have := hrest x hx'; omega,
          fun g hg => ⟨(hsegs g hg).1,
            show g.2.1 < p + 1 by have := (hsegs g hg).2; omega⟩, hpw⟩
    · rw [if_neg hclose]
      exact ⟨hse,
        fun x hx' => show stt.endP ≤ x.1 by have := hrest x hx'; omega, hsegs, hpw⟩

theorem segScanAux_inv (d : ℝ) :
    ∀ (items : List (ℤ × ℝ)) (stt : SegState),
    items.Pairwise (fun a b => a.1 < b.1) → SegInv stt items →
    (∀ g ∈ (segScanAux d stt items).segs, g.1 ≤ g.2.1) ∧
      (segScanAux d stt items).segs.Pairwise (fun a b => a.2.1 < b.1) := by
  intro items
  induction items with
  | nil =>
    intro stt _ hinv
    exact ⟨fun g hg => (hinv.2.2.1 g hg).1, hinv.2.2.2⟩
  | cons hd tail ih =>
    intro stt hpw hinv
    obtain ⟨p, v⟩ := hd
    cases tail with
    | nil =>
      have hinv' := segStep_inv d stt p v true [] hinv (by simp)
      exact ⟨fun g hg => (hinv'.2.2.1 g hg).1, hinv'.2.2.2⟩
    | cons x rest =>
      have hrest : ∀ y ∈ x :: rest, p < y.1 := by
        intro y hy
        exact (List.pairwise_cons.mp hpw).1 y hy
      have hinv' := segStep_inv d stt p v false (x :: rest) hinv hrest
      exact ih (segStep d stt p v false) (List.pairwise_cons.mp hpw).2 hinv'

theorem pushSeg_inv (segs : Fin 2 → List (ℤ × ℤ)) (cs : Fin 2) (a segEnd : ℤ)
    (ha : a ≤ segEnd)
    (hb : ∀ s : Fin 2, ∀ g ∈ segs s, g.1 ≤ g.2 ∧ segEnd < g.1)
    (hpw : ∀ s : Fin 2, (segs s).Pairwise (fun x y => y.2 < x.1))
    (hcross : ∀ g ∈ segs 0, ∀ g' ∈ segs 1, g.2 < g'.1 ∨ g'.2 < g.1) :
    (∀ s : Fin 2, ∀ g ∈ pushSeg segs cs (a, segEnd) s, g.1 ≤ g.2 ∧ a - 1 < g.1) ∧
      (∀ s : Fin 2, (pushSeg segs cs (a, segEnd) s).Pairwise (fun x y => y.2 < x.1)) ∧
      (∀ g ∈ pushSeg segs cs (a, segEnd) 0, ∀ g' ∈ pushSeg segs cs (a, segEnd) 1,
        g.2 < g'.1 ∨ g'.2 < g.1) := by
  have hmem : ∀ s : Fin 2, ∀ g ∈ pushSeg segs cs (a, segEnd) s,
      g ∈ segs s ∨ (s = cs ∧ g = (a, segEnd)) := by
    intro s g hg
    by_cases hsc : s = cs
    · simp only [pushSeg, if_pos hsc] at hg
      rcases List.mem_append.mp hg with h | h
      · exact Or.inl h
      · exact Or.inr ⟨hsc, by simpa using h⟩
    · simp only [pushSeg, if_neg hsc] at hg
      exact Or.inl hg
  refine ⟨?_, ?_, ?_⟩
  · intro s g hg
    rcases hmem s g hg with h | h
    · have := hb s g h
      omega
    · obtain ⟨_, hx⟩ := h
      subst hx
      exact ⟨ha, by omega⟩
  · intro s
    simp only [pushSeg]
    split
    · refine List.pairwise_append.mpr ⟨hpw s, by simp, ?_⟩
      intro g hg g' hg'
      have hx : g' = (a, segEnd) := by simpa using hg'
      subst hx
      exact (hb s g hg).2
    · exact hpw s
  · intro g hg g' hg'
    rcases hmem 0 g hg with h | h <;> rcases hmem 1 g' hg' with h' | h'
    · exact hcross g h g' h'
    · obtain ⟨_, hx⟩ := h'
      subst hx
      exact Or.inr (show segEnd < g.1 from (hb 0 g h).2)
    · obtain ⟨_, hx⟩ := h
      subst hx
      exact Or.inl (show segEnd < g'.1 from (hb 1 g' h').2)
    · exact absurd (h.1.trans h'.1.symm) (by decide)

theorem vitBack_inv (trk : ℕ → Fin 2 → Fin 2) (startC : ℤ) :
    ∀ (i : ℕ) (cs : Fin 2) (segEnd : ℤ) (segs : Fin 2 → List (ℤ × ℤ)),
    startC + (i : ℤ) ≤ segEnd →
    (∀ s : Fin 2, ∀ g ∈ segs s, g.1 ≤ g.2 ∧ segEnd < g.1) →
    (∀ s : Fin 2, (segs s).Pairwise (fun x y => y.2 < x.1)) →
    (∀ g ∈ segs 0, ∀ g' ∈ segs 1, g.2 < g'.1 ∨ g'.2 < g.1) →
    (∀ s : Fin 2, ∀ g ∈ vitBack trk startC i cs segEnd segs s, g.1 ≤ g.2) ∧
      (∀ s : Fin 2,
        (vitBack trk startC i cs segEnd segs s).Pairwise (fun x y => y.2 < x.1)) ∧
      (∀ g ∈ vitBack trk startC i cs segEnd segs 0,
        ∀ g' ∈ vitBack trk startC i cs segEnd segs 1, g.2 < g'.1 ∨ g'.2 < g.1) := by
  intro i
  induction i with
  | zero =>
    intro cs segEnd segs hle hb hpw hcross
    have hp := pushSeg_inv segs cs startC segEnd (by simpa using hle) hb hpw hcross
    exact ⟨fun s g hg => (hp.1 s g hg).1, hp.2.1, hp.2.2⟩
  | succ i ih =>
    intro cs segEnd segs hle hb hpw hcross
    simp only [vitBack]
    split
    · have ha : startC + ((i : ℤ) + 1) ≤ segEnd := by push_cast at hle; linarith
      have hp := pushSeg_inv segs cs (startC + ((i : ℤ) + 1)) segEnd ha hb hpw hcross
      exact ih (trk (i + 1) cs) (startC + ((i : ℤ) + 1) - 1)
        (pushSeg segs cs (startC + ((i : ℤ) + 1), segEnd))
        (by linarith)
        (fun s g hg => ⟨(hp.1 s g hg).1, by have := (hp.1 s g hg).2; omega⟩)
        hp.2.1 hp.2.2
    · exact ih (trk (i + 1) cs) segEnd segs (by push_cast at hle; linarith) hb hpw hcross

/-- Claim C8 (amended): every emitted segment is well-formed
(`start <= end`), and no two emitted segments overlap; the hw6/hw7
`parse_sequence` segment list is emitted in increasing position order (for an
input whose positions are strictly increasing and at least the initial
coordinate 1), but the hw9 per-state segment lists are emitted in DECREASING
position order (backtracking order), here stated for coordinates consistent
with the sequence length (`end = start + n - 1`). -/
theorem segment_lists_amended :
    (∀ (d : ℝ) (items : List (ℤ × ℝ)),
      items.Pairwise (fun a b => a.1 < b.1) →
      (∀ x ∈ items, 1 ≤ x.1) →
      (∀ g ∈ segScan d items, g.1 ≤ g.2.1) ∧
        (segScan d items).Pairwise (fun a b => a.2.1 < b.1)) ∧
    (∀ (st : Fin 2 → ℝ) (tr : Fin 2 → Fin 2 → ℝ) (em : Fin 2 → ℕ → ℝ)
        (seq : List ℕ) (startC endC : ℤ),
      endC = startC + seq.length - 1 →
      (∀ s : Fin 2, ∀ g ∈ vitSegments st tr em seq startC endC s, g.1 ≤ g.2) ∧
        (∀ s : Fin 2, (vitSegments st tr em seq startC endC s).Pairwise
          (fun x y => y.2 < x.1)) ∧
        (∀ g ∈ vitSegments st tr em seq startC endC 0,
          ∀ g' ∈ vitSegments st tr em seq startC endC 1,
            g.2 < g'.1 ∨ g'.2 < g.1)) := by
  constructor
  · intro d items hpw hpos
    exact segScanAux_inv d items ⟨0, 0, 1, 1, []⟩ hpw
      ⟨le_refl _, fun x hx => hpos x hx, by simp, by simp⟩
  · intro st tr em seq startC endC hend
    by_cases h2 : 2 ≤ seq.length
    · have hcast : ((seq.length - 2 : ℕ) : ℤ) = (seq.length : ℤ) - 2 := by
        omega
      have hle : startC + ((seq.length - 2 : ℕ) : ℤ) ≤ endC := by
        rw [hcast, hend]
        omega
      have := vitBack_inv
        (fun i cs => ((vitTables st tr em seq).getD i (fun _ => 0, fun _ => 0)).2 cs)
        startC (seq.length - 2)
        (vitFinal ((vitTables st tr em seq).getD (seq.length - 1)
          (fun _ => 0, fun _ => 0)).1)
        endC (fun _ => []) hle (by simp) (by simp) (by simp)
      simp only [vitSegments, if_pos h2]
      exact this
    · simp only [vitSegments, if_neg h2]
      refine ⟨by simp, by simp, by simp⟩

/-- Witness for `segment_lists_amended`: the hw6/hw7 part applied to the
seven-item score stream (strictly increasing positions 1..7), and the hw9 part
applied to the four-symbol decreasing-order input with consistent coordinates
`0..3`. -/
theorem segment_lists_amended_witness :
    (c6Stream.Pairwise (fun a b => a.1 < b.1) ∧ (∀ x ∈ c6Stream, 1 ≤ x.1) ∧
      (∀ g ∈ segScan (-4) c6Stream, g.1 ≤ g.2.1) ∧
        (segScan (-4) c6Stream).Pairwise (fun a b => a.2.1 < b.1)) ∧
    ((3 : ℤ) = 0 + (([0, 1, 2, 3] : List ℕ).length : ℤ) - 1 ∧
      (∀ s : Fin 2, ∀ g ∈ vitSegments zeroStart zeroTrans c8Em [0, 1, 2, 3] 0 3 s,
        g.1 ≤ g.2) ∧
      (∀ s : Fin 2, (vitSegments zeroStart zeroTrans c8Em [0, 1, 2, 3] 0 3 s).Pairwise
        (fun x y => y.2 < x.1))) := by
  have hpw : c6Stream.Pairwise (fun a b : ℤ × ℝ => a.1 < b.1) := by
    norm_num [c6Stream, List.pairwise_cons]
  have hpos : ∀ x ∈ c6Stream, (1 : ℤ) ≤ x.1 := by
    intro x hx
    fin_cases hx <;> norm_num
  have hlen : (3 : ℤ) = 0 + (([0, 1, 2, 3] : List ℕ).length : ℤ) - 1 := by
    norm_num
  have pa := segment_lists_amended.1 (-4) c6Stream hpw hpos
  have pb := segment_lists_amended.2 zeroStart zeroTrans c8Em [0, 1, 2, 3] 0 3 hlen
  exact ⟨⟨hpw, hpos, pa.1, pa.2⟩, ⟨hlen, pb.1, pb.2.1⟩⟩

end BioRS
